import Mathlib

/-!
# A shallow embedding of `bugFinder.py`

The Python program locates a multiline pattern (a list of text fragments,
one per line, with spaces acting as single-character wildcards) inside a
text document (the "landscape").  This file translates the program into
Lean definitions and proves properties about them.

Conventions of the embedding:
* a text line is a `List Char`; line numbers and columns are 1-based `Nat`s
  exactly as in the source;
* the regular expression built in `PatternPart.__init__`
  (`re.escape`, spaces replaced by `.`, wrapped in a `(?=(...))` lookahead
  so that overlapping matches are all reported) is embedded as the
  positionwise predicate `matchesAt`: `.` matches any character except a
  newline, every other pattern character matches itself literally, and
  `finditer` of the zero-width lookahead visits every position
  `0 .. line.length`;
* Python object identity of a `PatternPart` is modelled by an `index`
  field holding the part's position in the pattern list (the source
  recovers the same number with `self.pattern.index(patternPart)`, which
  uses identity because `PatternPart` has no `__eq__`); an `Occurrence`
  stores that index together with the parent's footprint, modelling the
  `parent` back-reference that `UsedCharacters` dereferences;
* file input is `Option (List (List Char))` (`none` = the file cannot be
  read) and Python exceptions become `Except String`;
* the recursion of `findOccurrenceOfNextPatternPart` is not structural, so
  it is embedded with an explicit fuel argument; `chainFuel` strictly
  dominates the recursion depth, and `findNextLoop_eq_chainExtend` below
  proves that with that much fuel the function never runs out (it always
  returns `some`), so the fuel is invisible in the behaviour.
-/

/-- Python's `str.rstrip` considers these characters whitespace. -/
def pyIsSpace (c : Char) : Bool :=
  c == ' ' || c == '\t' || c == '\n' || c == '\r' || c == '\x0b' || c == '\x0c'

/-- `line.rstrip()`: remove trailing whitespace (end-of-line included). -/
def pyRstrip (l : List Char) : List Char :=
  (l.reverse.dropWhile pyIsSpace).reverse

/-- One pattern character against one landscape character: a space in the
pattern was turned into `.` by `re.sub`, which matches any character except
a newline; every other pattern character is matched literally. -/
def matchChar (pc lc : Char) : Bool :=
  if pc == ' ' then lc != '\n' else pc == lc

/-- The compiled regex of a pattern part matches the line starting at
0-based position `p`. -/
def matchesAt (pattern line : List Char) (p : Nat) : Bool :=
  decide (p + pattern.length ≤ line.length) &&
    (List.range pattern.length).all
      (fun i => matchChar (pattern.getD i ' ') (line.getD (p + i) ' '))

/-- `PatternPart.measureFootprint`: indices of the non-space characters. -/
def measureFootprint (pattern : List Char) : List Nat :=
  (pattern.enum.filter (fun ic => ic.2 != ' ')).map (fun ic => ic.1)

/-- `Occurrence`: a match of one pattern part at a position.  `parent` is
the index of the producing `PatternPart` in the finder's pattern list and
`parentFootprint` its footprint; together they model the `self.parent`
object reference of the source. -/
structure Occurrence where
  line : Nat
  column : Nat
  parent : Nat
  parentFootprint : List Nat
deriving Repr, DecidableEq

/-- `Occurrence.follows`: the receiver starts at the same column on the
line right below `otherOccurrence`. -/
def Occurrence.follows (self otherOccurrence : Occurrence) : Bool :=
  self.line == otherOccurrence.line + 1 && self.column == otherOccurrence.column

/-- `PatternPart`: one line of the pattern plus its accumulated
occurrences.  `index` models the object's identity (its position in
`BugFinder.pattern`). -/
structure PatternPart where
  pattern : List Char
  patternFootprint : List Nat
  index : Nat
  occurrences : List Occurrence
deriving Repr, DecidableEq

/-- `PatternPart.__init__`: store the pattern, compute the footprint,
start with no occurrences. -/
def PatternPart.make (pattern : List Char) (index : Nat) : PatternPart :=
  { pattern := pattern
    patternFootprint := measureFootprint pattern
    index := index
    occurrences := [] }

/-- The occurrences that one `finditer` pass over `line` appends: one per
position where the lookahead regex matches, with 1-based column
`m.start() + 1`. -/
def PatternPart.newOccurrences (self : PatternPart) (lineNumber : Nat)
    (line : List Char) : List Occurrence :=
  ((List.range (line.length + 1)).filter (fun p => matchesAt self.pattern line p)).map
    (fun p => ⟨lineNumber, p + 1, self.index, self.patternFootprint⟩)

/-- `PatternPart.findOccurrences`: append all matches of the pattern in
the given line to the occurrence list. -/
def PatternPart.findOccurrences (self : PatternPart) (lineNumber : Nat)
    (line : List Char) : PatternPart :=
  { self with occurrences := self.occurrences ++ self.newOccurrences lineNumber line }

/-- `UsedCharacters`: the landscape positions consumed by finalized
matches.  The Python dictionary-of-sets is modelled by a list of
`(line, column)` pairs queried by membership (set semantics). -/
structure UsedCharacters where
  list : List (Nat × Nat)
deriving Repr, DecidableEq

/-- `UsedCharacters.addPosition`. -/
def UsedCharacters.addPosition (self : UsedCharacters) (line column : Nat) :
    UsedCharacters :=
  ⟨(line, column) :: self.list⟩

/-- `UsedCharacters.isPositionUsed`. -/
def UsedCharacters.isPositionUsed (self : UsedCharacters) (line column : Nat) : Bool :=
  self.list.contains (line, column)

/-- `UsedCharacters.markUsed`: mark every footprint cell of the
occurrence as consumed. -/
def UsedCharacters.markUsed (self : UsedCharacters) (occurrence : Occurrence) :
    UsedCharacters :=
  occurrence.parentFootprint.foldl
    (fun u index => u.addPosition occurrence.line (occurrence.column + index)) self

/-- `UsedCharacters.alreadyUsed`: some footprint cell of the occurrence
is already consumed. -/
def UsedCharacters.alreadyUsed (self : UsedCharacters) (occurrence : Occurrence) : Bool :=
  occurrence.parentFootprint.any
    (fun index => self.isPositionUsed occurrence.line (occurrence.column + index))

/-- `BugFinder` session state. -/
structure BugFinder where
  pattern : List PatternPart
  patternSet : Bool
  matches' : Nat
  matchParts : List (List Occurrence)
  usedCharacters : UsedCharacters
deriving Repr, DecidableEq

/-- `BugFinder.__init__`. -/
def BugFinder.init : BugFinder :=
  { pattern := []
    patternSet := false
    matches' := 0
    matchParts := []
    usedCharacters := ⟨[]⟩ }

/-- The pattern parts built by `setPattern`'s reading loop: one
`PatternPart` per input line, stripped of trailing whitespace, numbered
from `startIndex`. -/
def buildParts (startIndex : Nat) : List (List Char) → List PatternPart
  | [] => []
  | line :: rest => PatternPart.make (pyRstrip line) startIndex :: buildParts (startIndex + 1) rest

/-- `BugFinder.setPattern`: read the pattern input; on any read failure
raise; otherwise append one part per line and set the flag. -/
def BugFinder.setPattern (self : BugFinder) (input : Option (List (List Char))) :
    Except String BugFinder :=
  match input with
  | none => .error "Cannot read the pattern file."
  | some fileLines =>
      .ok { self with
              pattern := self.pattern ++ buildParts self.pattern.length fileLines
              patternSet := true }

/-- `BugFinder.checkPattern`. -/
def BugFinder.checkPattern (self : BugFinder) : Except String Unit :=
  if !self.patternSet || self.pattern.length == 0 then
    .error "Pattern has not been properly defined."
  else
    .ok ()

/-- The line loop of `analyzeLandscape`: every pattern part scans every
landscape line, lines numbered from `lineNumber`. -/
def scanLines (parts : List PatternPart) (lineNumber : Nat) :
    List (List Char) → List PatternPart
  | [] => parts
  | line :: rest =>
      scanLines (parts.map (fun part => part.findOccurrences lineNumber line))
        (lineNumber + 1) rest

/-- `BugFinder.analyzeLandscape`: check the pattern, then record the
single-line occurrences of every part over the whole landscape. -/
def BugFinder.analyzeLandscape (self : BugFinder)
    (input : Option (List (List Char))) : Except String BugFinder :=
  match self.checkPattern with
  | .error e => .error e
  | .ok _ =>
      match input with
      | none => .error "Cannot read the landscape file."
      | some fileLines => .ok { self with pattern := scanLines self.pattern 1 fileLines }

/-- The inner occurrence loop of `findOccurrenceOfNextPatternPart`: skip
occurrences that are `alreadyUsed`, accept the first one that `follows`
the last accepted occurrence `z`. -/
def firstViable (used : UsedCharacters) (occs : List Occurrence) (z : Occurrence) :
    Option Occurrence :=
  occs.find? (fun occ => !used.alreadyUsed occ && occ.follows z)

/-- The body of `findOccurrenceOfNextPatternPart`, with the part loop as
the index `i` and the recursion made explicit.  Faithfully to the source:
parts with `index < len(occurrenceList)` are skipped; at a part with a
viable continuation the occurrence is appended, the function recurses
(from part index 0), the inner loop `break`s, and the part loop then
continues at `i + 1` with the grown list.  `fuel` only makes the
recursion structural; `chainFuel` below always suffices. -/
def findNextLoop (parts : List PatternPart) (used : UsedCharacters) :
    Nat → Nat → List Occurrence → Option (List Occurrence)
  | 0, _, _ => none
  | fuel + 1, i, acc =>
    if h : i < parts.length then
      if i < acc.length then
        findNextLoop parts used fuel (i + 1) acc
      else
        match acc.getLast? with
        | none => findNextLoop parts used fuel (i + 1) acc
        | some z =>
          match firstViable used (parts.get ⟨i, h⟩).occurrences z with
          | none => findNextLoop parts used fuel (i + 1) acc
          | some occ =>
            match findNextLoop parts used fuel 0 (acc ++ [occ]) with
            | none => none
            | some acc2 => findNextLoop parts used fuel (i + 1) acc2
    else
      some acc

/-- Fuel that strictly dominates the recursion depth of `findNextLoop`
for a pattern with `n` parts. -/
def chainFuel (n : Nat) : Nat := (n + 2) * (n + 2)

/-- `BugFinder.findOccurrenceOfNextPatternPart`. -/
def BugFinder.findOccurrenceOfNextPatternPart (self : BugFinder)
    (occurrenceList : List Occurrence) : List Occurrence :=
  (findNextLoop self.pattern self.usedCharacters (chainFuel self.pattern.length)
      0 occurrenceList).getD occurrenceList

/-- The body of `detectPattern`'s loop over the first part's occurrences:
skip a seed whose characters are already used; otherwise grow the chain;
if it reaches the full pattern length, count the match, consume its
characters and store it. -/
def BugFinder.detectStep (self : BugFinder) (occurrence : Occurrence) : BugFinder :=
  if self.usedCharacters.alreadyUsed occurrence then
    self
  else
    let occurrenceList := self.findOccurrenceOfNextPatternPart [occurrence]
    if occurrenceList.length == self.pattern.length then
      { self with
          matches' := self.matches' + 1
          usedCharacters := occurrenceList.foldl UsedCharacters.markUsed self.usedCharacters
          matchParts := self.matchParts ++ [occurrenceList] }
    else
      self

/-- `BugFinder.detectPattern`: after `checkPattern`, seed chains from the
occurrences of the first pattern part only (the loop `break`s after the
first part). -/
def BugFinder.detectPattern (self : BugFinder) : Except String BugFinder :=
  match self.checkPattern with
  | .error e => .error e
  | .ok _ =>
      match self.pattern with
      | [] => .ok self
      | patternFirstPart :: _ =>
          .ok (patternFirstPart.occurrences.foldl BugFinder.detectStep self)

/-- A complete session exactly as `main` drives it: load the pattern,
scan the landscape, detect matches. -/
def runSession (patternInput landscapeInput : Option (List (List Char))) :
    Except String BugFinder :=
  match BugFinder.init.setPattern patternInput with
  | .error e => .error e
  | .ok f1 =>
      match f1.analyzeLandscape landscapeInput with
      | .error e => .error e
      | .ok f2 => f2.detectPattern

/-- Did the session succeed? -/
def exceptOk (e : Except String BugFinder) : Bool :=
  match e with
  | .ok _ => true
  | .error _ => false

/-- Match count of a session result (0 on error). -/
def matchesOf (e : Except String BugFinder) : Nat :=
  match e with
  | .ok f => f.matches'
  | .error _ => 0

/-- Stored match results of a session result ([] on error). -/
def matchPartsOf (e : Except String BugFinder) : List (List Occurrence) :=
  match e with
  | .ok f => f.matchParts
  | .error _ => []

/-!
## Characterizing the assembler: greedy chain extension

`findOccurrenceOfNextPatternPart` behaves as a greedy extension loop:
at each step it commits to the first occurrence (scanning the remaining
parts in index order and each part's occurrences in discovery order)
that is unblocked and follows the chain's last element, and it never
revisits that commitment.  `chainExtend` states that strategy directly;
`findNextLoop_eq_chainExtend` proves the source's loop equal to it.
-/

/-- The first viable continuation of the chain `acc`: scanning the parts
whose index is at least `acc.length` in order, the first occurrence (in
discovery order) that is not blocked and follows the last element of
`acc`. -/
def nextViable (parts : List PatternPart) (used : UsedCharacters)
    (acc : List Occurrence) : Option Occurrence :=
  match acc.getLast? with
  | none => none
  | some z => (parts.drop acc.length).findSome? (fun part => firstViable used part.occurrences z)

/-- Greedy chain extension: repeatedly append the first viable
continuation until none exists.  `k` is structural fuel; any
`k ≥ parts.length` gives the same result (`chainExtend_fuel`). -/
def chainExtend (parts : List PatternPart) (used : UsedCharacters) :
    Nat → List Occurrence → List Occurrence
  | 0, acc => acc
  | k + 1, acc =>
    match nextViable parts used acc with
    | none => acc
    | some occ => chainExtend parts used k (acc ++ [occ])

theorem get_drop_eq {α} (l : List α) (k m : Nat) (hm : m < (l.drop k).length) :
    (l.drop k).get ⟨m, hm⟩ =
      l.get ⟨k + m, by rw [List.length_drop] at hm; omega⟩ := by
  simp [List.get_eq_getElem, List.getElem_drop]

theorem get_congr_idx {α} (l : List α) {a b : Nat} (ha : a < l.length) (h : a = b)
    (hb : b < l.length) : l.get ⟨a, ha⟩ = l.get ⟨b, hb⟩ := by
  cases h; rfl

theorem get_mem_drop {α} (l : List α) (k j : Nat) (hj : j < l.length) (hk : k ≤ j) :
    l.get ⟨j, hj⟩ ∈ l.drop k := by
  have hm : j - k < (l.drop k).length := by rw [List.length_drop]; omega
  have h1 := get_drop_eq l k (j - k) hm
  rw [get_congr_idx l _ (show k + (j - k) = j by omega) hj] at h1
  rw [← h1]
  exact List.get_mem _ _ _

theorem findSome?_eq_some_of_first {α β} (f : α → Option β) :
    ∀ (l : List α) (k : Nat) (hk : k < l.length) (v : β),
      (∀ j (hj : j < l.length), j < k → f (l.get ⟨j, hj⟩) = none) →
      f (l.get ⟨k, hk⟩) = some v → l.findSome? f = some v := by
  intro l
  induction l with
  | nil => intro k hk; simp at hk
  | cons a t ih =>
    intro k hk v hbefore hv
    cases k with
    | zero =>
      simp only [List.get] at hv
      simp [List.findSome?, hv]
    | succ k' =>
      have h0 : f a = none := hbefore 0 (by simp) (by omega)
      simp only [List.findSome?, h0]
      exact ih k' (by simpa using hk) v
        (fun j hj hjlt => hbefore (j + 1) (by simpa using hj) (by omega)) hv

/-- `nextViable` is `none` as soon as the chain is at least as long as the
pattern. -/
theorem nextViable_of_length_le {parts : List PatternPart} {used : UsedCharacters}
    {acc : List Occurrence} (h : parts.length ≤ acc.length) :
    nextViable parts used acc = none := by
  unfold nextViable
  cases hz : acc.getLast? with
  | none => rfl
  | some z =>
    rw [List.drop_eq_nil_iff.mpr h]
    rfl

theorem chainExtend_of_none {parts : List PatternPart} {used : UsedCharacters}
    {acc : List Occurrence} (h : nextViable parts used acc = none) (k : Nat) :
    chainExtend parts used k acc = acc := by
  cases k <;> simp [chainExtend, h]

theorem chainExtend_some {parts : List PatternPart} {used : UsedCharacters}
    {acc : List Occurrence} {occ : Occurrence}
    (h : nextViable parts used acc = some occ) (k : Nat) :
    chainExtend parts used (k + 1) acc = chainExtend parts used k (acc ++ [occ]) := by
  simp [chainExtend, h]

theorem chainExtend_length {parts : List PatternPart} {used : UsedCharacters} :
    ∀ (k : Nat) (acc : List Occurrence),
      acc.length ≤ (chainExtend parts used k acc).length := by
  intro k
  induction k with
  | zero => intro acc; simp [chainExtend]
  | succ k ih =>
    intro acc
    cases hnv : nextViable parts used acc with
    | none => simp [chainExtend, hnv]
    | some occ =>
      rw [chainExtend_some hnv]
      calc acc.length ≤ (acc ++ [occ]).length := by simp
        _ ≤ _ := ih (acc ++ [occ])

theorem chainExtend_ne_nil {parts : List PatternPart} {used : UsedCharacters}
    {acc : List Occurrence} (hne : acc ≠ []) (k : Nat) :
    chainExtend parts used k acc ≠ [] := by
  have h1 : 0 < acc.length := List.length_pos.mpr hne
  have h2 := @chainExtend_length parts used k acc
  exact List.ne_nil_of_length_pos (by omega)

/-- After `chainExtend` with fuel at least `parts.length + 1 - acc.length`,
no further viable continuation exists: the greedy extension is complete. -/
theorem chainExtend_complete {parts : List PatternPart} {used : UsedCharacters} :
    ∀ (k : Nat) (acc : List Occurrence), parts.length + 1 ≤ k + acc.length →
      nextViable parts used (chainExtend parts used k acc) = none := by
  intro k
  induction k with
  | zero =>
    intro acc h
    simp only [chainExtend]
    exact nextViable_of_length_le (by omega)
  | succ k ih =>
    intro acc h
    cases hnv : nextViable parts used acc with
    | none => rw [chainExtend_of_none hnv]; exact hnv
    | some occ =>
      rw [chainExtend_some hnv]
      exact ih (acc ++ [occ]) (by simp; omega)

/-- The fuel of `chainExtend` is irrelevant once it reaches
`parts.length - acc.length`. -/
theorem chainExtend_fuel {parts : List PatternPart} {used : UsedCharacters} :
    ∀ (k j : Nat) (acc : List Occurrence), parts.length ≤ k + acc.length →
      parts.length ≤ j + acc.length →
      chainExtend parts used k acc = chainExtend parts used j acc := by
  intro k
  induction k with
  | zero =>
    intro j acc hk hj
    simp only [chainExtend]
    exact (chainExtend_of_none (nextViable_of_length_le (by omega)) j).symm
  | succ k ih =>
    intro j acc hk hj
    cases hnv : nextViable parts used acc with
    | none => rw [chainExtend_of_none hnv, chainExtend_of_none hnv]
    | some occ =>
      cases j with
      | zero =>
        exact absurd hnv (by rw [nextViable_of_length_le (by omega)]; simp)
      | succ j =>
        rw [chainExtend_some hnv, chainExtend_some hnv]
        exact ih j (acc ++ [occ]) (by simp; omega) (by simp; omega)

/-- From a completed chain, every remaining part has no viable
continuation. -/
theorem nextViable_none_pointwise {parts : List PatternPart} {used : UsedCharacters}
    {acc : List Occurrence} (h : nextViable parts used acc = none) (hne : acc ≠ [])
    (j : Nat) (hj : j < parts.length) (hlen : acc.length ≤ j) :
    firstViable used (parts.get ⟨j, hj⟩).occurrences (acc.getLast hne) = none := by
  unfold nextViable at h
  rw [List.getLast?_eq_getLast_of_ne_nil hne] at h
  exact List.findSome?_eq_none_iff.mp h _ (get_mem_drop parts acc.length j hj hlen)

/-- Conversely, pointwise failure on every remaining part means no viable
continuation. -/
theorem nextViable_none_of_pointwise {parts : List PatternPart} {used : UsedCharacters}
    {acc : List Occurrence} (hne : acc ≠ [])
    (h : ∀ j (hj : j < parts.length), acc.length ≤ j →
      firstViable used (parts.get ⟨j, hj⟩).occurrences (acc.getLast hne) = none) :
    nextViable parts used acc = none := by
  unfold nextViable
  rw [List.getLast?_eq_getLast_of_ne_nil hne]
  show (parts.drop acc.length).findSome? _ = none
  apply List.findSome?_eq_none_iff.mpr
  intro x hx
  obtain ⟨i, hi, he⟩ := List.mem_iff_getElem.mp hx
  have hi3 := hi
  rw [List.length_drop] at hi3
  have hidx : acc.length + i < parts.length := by omega
  have h1 : parts.get ⟨acc.length + i, hidx⟩ = x := by
    rw [List.get_eq_getElem, ← List.getElem_drop]
    exact he
  rw [← h1]
  exact h _ hidx (by omega)

/-- If the parts strictly before `i` (and at index at least `acc.length`)
have no viable continuation but part `i` has one, it is the first viable
continuation. -/
theorem nextViable_some_of_pointwise {parts : List PatternPart} {used : UsedCharacters}
    {acc : List Occurrence} (hne : acc ≠ [])
    {i : Nat} (hi : i < parts.length) (hlen : acc.length ≤ i)
    (hbefore : ∀ j (hj : j < parts.length), acc.length ≤ j → j < i →
      firstViable used (parts.get ⟨j, hj⟩).occurrences (acc.getLast hne) = none)
    {occ : Occurrence}
    (hv : firstViable used (parts.get ⟨i, hi⟩).occurrences (acc.getLast hne) = some occ) :
    nextViable parts used acc = some occ := by
  unfold nextViable
  rw [List.getLast?_eq_getLast_of_ne_nil hne]
  show (parts.drop acc.length).findSome? _ = some occ
  apply findSome?_eq_some_of_first _ _ (i - acc.length)
    (by rw [List.length_drop]; omega)
  · intro j hj hjlt
    rw [get_drop_eq]
    have hjd : j < (parts.drop acc.length).length := hj
    rw [List.length_drop] at hjd
    exact hbefore (acc.length + j) (by omega) (by omega) (by omega)
  · rw [get_drop_eq]
    rw [get_congr_idx parts _ (show acc.length + (i - acc.length) = i by omega) hi]
    exact hv

/-- The central characterization: with fuel strictly above the measure
`(n - acc.length) * (n + 1) + (n - i)`, the faithful loop embedded from
`findOccurrenceOfNextPatternPart` returns `some` of the greedy chain
extension of `acc` — provided the parts in `[acc.length, i)` (the part
loop's already-visited range) admit no viable continuation, which holds
in particular when `i = 0`. -/
theorem findNextLoop_eq_chainExtend (parts : List PatternPart) (used : UsedCharacters) :
    ∀ (fuel i : Nat) (acc : List Occurrence) (hne : acc ≠ []),
      (parts.length - acc.length) * (parts.length + 1) + (parts.length - i) < fuel →
      (∀ j (hj : j < parts.length), acc.length ≤ j → j < i →
        firstViable used (parts.get ⟨j, hj⟩).occurrences (acc.getLast hne) = none) →
      findNextLoop parts used fuel i acc =
        some (chainExtend parts used parts.length acc) := by
  intro fuel
  induction fuel with
  | zero => intro i acc hne hfuel hscan; exact absurd hfuel (Nat.not_lt_zero _)
  | succ F ih =>
    intro i acc hne hfuel hscan
    by_cases hi : i < parts.length
    · simp only [findNextLoop]
      rw [dif_pos hi]
      by_cases hlt : i < acc.length
      · rw [if_pos hlt]
        apply ih (i + 1) acc hne
        · have hp : parts.length - (i + 1) + 1 = parts.length - i := by omega
          revert hfuel
          generalize (parts.length - acc.length) * (parts.length + 1) = P
          omega
        · intro j hj h1 h2
          exact absurd h1 (by omega)
      · rw [if_neg hlt]
        have hge : acc.length ≤ i := Nat.le_of_not_lt hlt
        rw [List.getLast?_eq_getLast_of_ne_nil hne]
        show (match firstViable used (parts.get ⟨i, hi⟩).occurrences (acc.getLast hne) with
          | none => findNextLoop parts used F (i + 1) acc
          | some occ =>
            match findNextLoop parts used F 0 (acc ++ [occ]) with
            | none => none
            | some acc2 => findNextLoop parts used F (i + 1) acc2) = _
        cases hv : firstViable used (parts.get ⟨i, hi⟩).occurrences (acc.getLast hne) with
        | none =>
          apply ih (i + 1) acc hne
          · revert hfuel
            generalize (parts.length - acc.length) * (parts.length + 1) = P
            omega
          · intro j hj h1 h2
            by_cases hji : j < i
            · exact hscan j hj h1 hji
            · have : j = i := by omega
              subst this
              rw [get_congr_idx parts hj rfl hi]
              exact hv
        | some occ =>
          have hne2 : acc ++ [occ] ≠ [] := by simp
          have harith1 : (parts.length - (acc ++ [occ]).length) * (parts.length + 1) +
              (parts.length - 0) < F := by
            have e1 : parts.length - acc.length = (parts.length - (acc.length + 1)) + 1 :=
              by omega
            have e4 : (parts.length - acc.length) * (parts.length + 1) =
                (parts.length - (acc.length + 1)) * (parts.length + 1) +
                  (parts.length + 1) := by
              rw [e1, Nat.succ_mul]
            simp only [List.length_append, List.length_cons, List.length_nil]
            revert hfuel e4
            generalize (parts.length - (acc.length + 1)) * (parts.length + 1) = P
            generalize (parts.length - acc.length) * (parts.length + 1) = R
            intro hfuel e4
            omega
          have hrec := ih 0 (acc ++ [occ]) hne2 harith1 (by intro j hj h1 h2; omega)
          show (match findNextLoop parts used F 0 (acc ++ [occ]) with
            | none => none
            | some acc2 => findNextLoop parts used F (i + 1) acc2) = _
          rw [hrec]
          show findNextLoop parts used F (i + 1)
              (chainExtend parts used parts.length (acc ++ [occ])) = _
          set acc2 := chainExtend parts used parts.length (acc ++ [occ]) with hacc2
          have hlen2 : acc.length + 1 ≤ acc2.length := by
            have := @chainExtend_length parts used parts.length (acc ++ [occ])
            simpa using this
          have hcomp : nextViable parts used acc2 = none := by
            rw [hacc2]
            exact chainExtend_complete parts.length (acc ++ [occ]) (by simp)
          have hne3 : acc2 ≠ [] := by
            rw [hacc2]; exact chainExtend_ne_nil hne2 _
          have harith2 : (parts.length - acc2.length) * (parts.length + 1) +
              (parts.length - (i + 1)) < F := by
            have e1 : parts.length - acc.length = (parts.length - (acc.length + 1)) + 1 :=
              by omega
            have e4 : (parts.length - acc.length) * (parts.length + 1) =
                (parts.length - (acc.length + 1)) * (parts.length + 1) +
                  (parts.length + 1) := by
              rw [e1, Nat.succ_mul]
            have e3 : (parts.length - acc2.length) * (parts.length + 1) ≤
                (parts.length - (acc.length + 1)) * (parts.length + 1) :=
              Nat.mul_le_mul_right _ (by omega)
            revert hfuel e4 e3
            generalize (parts.length - acc2.length) * (parts.length + 1) = Q
            generalize (parts.length - (acc.length + 1)) * (parts.length + 1) = P
            generalize (parts.length - acc.length) * (parts.length + 1) = R
            intro hfuel e4 e3
            omega
          rw [ih (i + 1) acc2 hne3 harith2
            (fun j hj h1 _ => nextViable_none_pointwise hcomp hne3 j hj h1)]
          rw [chainExtend_of_none hcomp]
          have hnv : nextViable parts used acc = some occ :=
            nextViable_some_of_pointwise hne hi hge hscan hv
          have hstable : chainExtend parts used parts.length acc =
              chainExtend parts used (parts.length + 1) acc :=
            chainExtend_fuel parts.length (parts.length + 1) acc (by omega) (by omega)
          rw [hstable, chainExtend_some hnv]
    · simp only [findNextLoop]
      rw [dif_neg hi]
      have hnone : nextViable parts used acc = none :=
        nextViable_none_of_pointwise hne
          (fun j hj h1 => hscan j hj h1 (by omega))
      rw [chainExtend_of_none hnone]

/-- The wrapper's fuel strictly dominates the measure of the main loop. -/
theorem chainFuel_big (n len : Nat) : (n - len) * (n + 1) + n < chainFuel n := by
  unfold chainFuel
  have h3 : (n - len) * (n + 1) ≤ n * (n + 1) := Nat.mul_le_mul_right _ (Nat.sub_le n len)
  have h1 : (n + 2) * (n + 2) = n * n + 4 * n + 4 := by ring
  have h2 : n * (n + 1) = n * n + n := by ring
  revert h3 h1 h2
  generalize (n - len) * (n + 1) = X
  generalize n * (n + 1) = Y
  generalize n * n = Z
  generalize (n + 2) * (n + 2) = W
  intro h3 h1 h2
  omega

/-- `findOccurrenceOfNextPatternPart` IS greedy chain extension: starting
from any nonempty chain it returns exactly `chainExtend`, committing to
the first viable continuation at every step. -/
theorem findNext_eq_chain (self : BugFinder) (acc : List Occurrence) (hne : acc ≠ []) :
    self.findOccurrenceOfNextPatternPart acc =
      chainExtend self.pattern self.usedCharacters self.pattern.length acc := by
  unfold BugFinder.findOccurrenceOfNextPatternPart
  rw [findNextLoop_eq_chainExtend self.pattern self.usedCharacters
    (chainFuel self.pattern.length) 0 acc hne
    (by simpa using chainFuel_big self.pattern.length acc.length)
    (by intro j hj h1 h2; omega)]
  rfl

/-- With a single-part pattern the chain never grows past its seed. -/
theorem findNext_singleton (self : BugFinder) (occ : Occurrence)
    (h : self.pattern.length = 1) :
    self.findOccurrenceOfNextPatternPart [occ] = [occ] := by
  rw [findNext_eq_chain self [occ] (by simp)]
  exact chainExtend_of_none (nextViable_of_length_le (by simp [h])) _

/-! ## Footprint cells and the exclusion set -/

/-- The landscape cells covered by the footprint of one occurrence. -/
def cellsOf (occ : Occurrence) : List (Nat × Nat) :=
  occ.parentFootprint.map (fun index => (occ.line, occ.column + index))

/-- The landscape cells covered by a stored match. -/
def cellsOfMatch (m : List Occurrence) : List (Nat × Nat) :=
  (m.map cellsOf).flatten

/-- Two stored matches cover disjoint cell sets. -/
def disjointMatches (m1 m2 : List Occurrence) : Bool :=
  (cellsOfMatch m1).all (fun c => !(cellsOfMatch m2).contains c)

theorem isPositionUsed_iff (u : UsedCharacters) (line column : Nat) :
    u.isPositionUsed line column = true ↔ (line, column) ∈ u.list := by
  unfold UsedCharacters.isPositionUsed
  exact List.elem_iff

theorem foldl_addPosition_mem (line col : Nat) :
    ∀ (fp : List Nat) (u : UsedCharacters) (p : Nat × Nat),
      p ∈ (fp.foldl (fun u index => u.addPosition line (col + index)) u).list ↔
        p ∈ u.list ∨ ∃ index ∈ fp, p = (line, col + index) := by
  intro fp
  induction fp with
  | nil => intro u p; simp
  | cons a t ih =>
    intro u p
    rw [List.foldl_cons, ih]
    simp only [UsedCharacters.addPosition, List.mem_cons, List.mem_cons]
    constructor
    · rintro ((h | h) | ⟨x, hx, he⟩)
      · exact Or.inr ⟨a, Or.inl rfl, h⟩
      · exact Or.inl h
      · exact Or.inr ⟨x, Or.inr hx, he⟩
    · rintro (h | ⟨x, (rfl | hx), he⟩)
      · exact Or.inl (Or.inr h)
      · exact Or.inl (Or.inl he)
      · exact Or.inr ⟨x, hx, he⟩

theorem markUsed_mem (u : UsedCharacters) (occ : Occurrence) (p : Nat × Nat) :
    p ∈ (u.markUsed occ).list ↔ p ∈ u.list ∨ p ∈ cellsOf occ := by
  unfold UsedCharacters.markUsed
  rw [foldl_addPosition_mem]
  unfold cellsOf
  simp only [List.mem_map]
  constructor
  · rintro (h | ⟨x, hx, he⟩)
    · exact Or.inl h
    · exact Or.inr ⟨x, hx, he.symm⟩
  · rintro (h | ⟨x, hx, he⟩)
    · exact Or.inl h
    · exact Or.inr ⟨x, hx, he.symm⟩

theorem cellsOfMatch_cons (a : Occurrence) (t : List Occurrence) :
    cellsOfMatch (a :: t) = cellsOf a ++ cellsOfMatch t := by
  simp [cellsOfMatch]

theorem foldl_markUsed_mem :
    ∀ (M : List Occurrence) (u : UsedCharacters) (p : Nat × Nat),
      p ∈ (M.foldl UsedCharacters.markUsed u).list ↔
        p ∈ u.list ∨ p ∈ cellsOfMatch M := by
  intro M
  induction M with
  | nil => intro u p; simp [cellsOfMatch]
  | cons a t ih =>
    intro u p
    rw [List.foldl_cons, ih, markUsed_mem, cellsOfMatch_cons, List.mem_append]
    tauto

theorem alreadyUsed_false_iff (u : UsedCharacters) (occ : Occurrence) :
    u.alreadyUsed occ = false ↔ ∀ c ∈ cellsOf occ, c ∉ u.list := by
  unfold UsedCharacters.alreadyUsed cellsOf
  rw [List.any_eq_false]
  constructor
  · rintro h c hc
    simp only [List.mem_map] at hc
    obtain ⟨x, hx, rfl⟩ := hc
    intro hmem
    exact h x hx ((isPositionUsed_iff u _ _).mpr hmem)
  · intro h x hx hpos
    exact h (occ.line, occ.column + x) (List.mem_map_of_mem _ hx)
      ((isPositionUsed_iff u _ _).mp hpos)

/-- An occurrence chosen by `nextViable` is not blocked by the exclusion
set. -/
theorem nextViable_some_not_used {parts : List PatternPart} {used : UsedCharacters}
    {acc : List Occurrence} {occ : Occurrence}
    (h : nextViable parts used acc = some occ) : used.alreadyUsed occ = false := by
  unfold nextViable at h
  cases hz : acc.getLast? with
  | none => rw [hz] at h; exact absurd h (by simp)
  | some z =>
    rw [hz] at h
    obtain ⟨part, _, hfv⟩ := List.exists_of_findSome?_eq_some h
    have hp := List.find?_some hfv
    simp only [Bool.and_eq_true, Bool.not_eq_true'] at hp
    exact hp.1

/-- Every element of a greedy chain extension was either already in the
seed chain or was unblocked when chosen. -/
theorem chainExtend_mem {parts : List PatternPart} {used : UsedCharacters} :
    ∀ (k : Nat) (acc : List Occurrence) (o : Occurrence),
      o ∈ chainExtend parts used k acc → o ∈ acc ∨ used.alreadyUsed o = false := by
  intro k
  induction k with
  | zero => intro acc o h; simp only [chainExtend] at h; exact Or.inl h
  | succ k ih =>
    intro acc o h
    cases hnv : nextViable parts used acc with
    | none =>
      rw [chainExtend_of_none hnv] at h
      exact Or.inl h
    | some occ =>
      rw [chainExtend_some hnv] at h
      rcases ih (acc ++ [occ]) o h with hm | hm
      · rcases List.mem_append.mp hm with hm | hm
        · exact Or.inl hm
        · simp only [List.mem_singleton] at hm
          subst hm
          exact Or.inr (nextViable_some_not_used hnv)
      · exact Or.inr hm

/-! ## Shape lemmas for the session pipeline -/

theorem buildParts_length : ∀ (s : Nat) (pl : List (List Char)),
    (buildParts s pl).length = pl.length := by
  intro s pl
  induction pl generalizing s with
  | nil => rfl
  | cons l rest ih => simp [buildParts, ih]

theorem detectStep_pattern (st : BugFinder) (occ : Occurrence) :
    (st.detectStep occ).pattern = st.pattern := by
  simp only [BugFinder.detectStep]
  split
  · rfl
  · split <;> rfl

theorem detectStep_used_mono (st : BugFinder) (occ : Occurrence) (p : Nat × Nat)
    (h : p ∈ st.usedCharacters.list) : p ∈ (st.detectStep occ).usedCharacters.list := by
  simp only [BugFinder.detectStep]
  split
  · exact h
  · split
    · exact (foldl_markUsed_mem _ _ _).mpr (Or.inl h)
    · exact h

/-- The state reached by a successful full session, in closed form: all
pattern parts scanned over the landscape, then `detectPattern`. -/
theorem runSession_some (pi li : List (List Char)) (hpi : pi ≠ []) :
    runSession (some pi) (some li) =
      BugFinder.detectPattern
        { pattern := scanLines (buildParts 0 pi) 1 li
          patternSet := true
          matches' := 0
          matchParts := []
          usedCharacters := ⟨[]⟩ } := by
  have hlen : ((buildParts 0 pi).length == 0) = false := by
    rw [buildParts_length]
    simp [List.length_eq_zero, hpi]
  unfold runSession BugFinder.setPattern BugFinder.analyzeLandscape BugFinder.checkPattern
  simp [BugFinder.init, hlen]

theorem runSession_nil_pattern (li : Option (List (List Char))) :
    runSession (some []) li = .error "Pattern has not been properly defined." := by
  rfl

/-! ## The two invariants of `detectPattern`'s loop -/

/-- Distinct stored matches cover pairwise disjoint cells, and every
stored match's cells are recorded in the exclusion set. -/
def MatchInv (st : BugFinder) : Prop :=
  List.Pairwise (fun m1 m2 => disjointMatches m1 m2 = true) st.matchParts ∧
  ∀ m ∈ st.matchParts, ∀ c ∈ cellsOfMatch m, c ∈ st.usedCharacters.list

theorem detectStep_matchInv (st : BugFinder) (occ : Occurrence)
    (h : MatchInv st) : MatchInv (st.detectStep occ) := by
  obtain ⟨hpw, hsub⟩ := h
  simp only [BugFinder.detectStep]
  split
  · exact ⟨hpw, hsub⟩
  · next hnotused =>
    split
    · next hlen =>
      constructor
      · -- pairwise disjointness, with the new match appended
        rw [List.pairwise_append]
        refine ⟨hpw, by simp, ?_⟩
        intro m1 hm1 m2 hm2
        simp only [List.mem_singleton] at hm2
        subst hm2
        -- every cell of the new match is outside the exclusion set,
        -- while every cell of an old match is inside it
        have hnew : ∀ c ∈ cellsOfMatch (st.findOccurrenceOfNextPatternPart [occ]),
            c ∉ st.usedCharacters.list := by
          intro c hc
          simp only [cellsOfMatch, List.mem_flatten, List.mem_map] at hc
          obtain ⟨cl, ⟨o, ho, rfl⟩, hco⟩ := hc
          rw [findNext_eq_chain st [occ] (by simp)] at ho
          rcases chainExtend_mem _ _ o ho with hseed | hfree
          · simp only [List.mem_singleton] at hseed
            subst hseed
            exact (alreadyUsed_false_iff _ _).mp
              (Bool.not_eq_true _ ▸ Bool.of_not_eq_true hnotused) c hco
          · exact (alreadyUsed_false_iff _ _).mp hfree c hco
        unfold disjointMatches
        rw [List.all_eq_true]
        intro c hc
        simp only [Bool.not_eq_true']
        rw [← Bool.not_eq_true, List.elem_iff]
        intro hcnew
        exact hnew c hcnew (hsub m1 hm1 c hc)
      · -- all stored cells are in the grown exclusion set
        intro m hm c hc
        rcases List.mem_append.mp hm with hold | hnewm
        · exact (foldl_markUsed_mem _ _ _).mpr (Or.inl (hsub m hold c hc))
        · simp only [List.mem_singleton] at hnewm
          subst hnewm
          exact (foldl_markUsed_mem _ _ _).mpr (Or.inr hc)
    · exact ⟨hpw, hsub⟩

theorem foldl_detectStep_matchInv :
    ∀ (l : List Occurrence) (st : BugFinder), MatchInv st →
      MatchInv (l.foldl BugFinder.detectStep st) := by
  intro l
  induction l with
  | nil => intro st h; exact h
  | cons a t ih => intro st h; exact ih _ (detectStep_matchInv st a h)

theorem detectPattern_matchInv (g f : BugFinder) (h : g.detectPattern = .ok f)
    (hI : MatchInv g) : MatchInv f := by
  unfold BugFinder.detectPattern at h
  split at h
  · exact absurd h (by simp)
  · split at h
    · cases h; exact hI
    · cases h; exact foldl_detectStep_matchInv _ _ hI

/-! ## The scan phase -/

theorem newOccurrences_findOccurrences (p : PatternPart) (ln : Nat) (line : List Char)
    (ln2 : Nat) (line2 : List Char) :
    (p.findOccurrences ln line).newOccurrences ln2 line2 = p.newOccurrences ln2 line2 := rfl

theorem newOccurrences_update (p : PatternPart) (os : List Occurrence)
    (ln : Nat) (line : List Char) :
    ({ p with occurrences := os } : PatternPart).newOccurrences ln line =
      p.newOccurrences ln line := rfl

/-- All occurrences a single part accumulates over a list of lines whose
first line is numbered `k`. -/
def allOccs (part : PatternPart) (k : Nat) : List (List Char) → List Occurrence
  | [] => []
  | line :: rest => part.newOccurrences k line ++ allOccs part (k + 1) rest

theorem allOccs_update (part : PatternPart) (os : List Occurrence) :
    ∀ (ls : List (List Char)) (k : Nat),
      allOccs ({ part with occurrences := os } : PatternPart) k ls = allOccs part k ls := by
  intro ls
  induction ls with
  | nil => intro k; rfl
  | cons l rest ih => intro k; simp [allOccs, newOccurrences_update, ih]

/-- Scanning a single-part pattern appends exactly the occurrences of
every line, in line order. -/
theorem scanLines_single :
    ∀ (ls : List (List Char)) (part : PatternPart) (k : Nat),
      scanLines [part] k ls =
        [{ part with occurrences := part.occurrences ++ allOccs part k ls }] := by
  intro ls
  induction ls with
  | nil =>
    intro part k
    simp [scanLines, allOccs]
  | cons line rest ih =>
    intro part k
    show scanLines [part.findOccurrences k line] (k + 1) rest = _
    rw [ih]
    unfold PatternPart.findOccurrences
    simp [allOccs, allOccs_update, List.append_assoc]

/-! ## The matcher on special fragments -/

theorem all_congr_mem {α} (l : List α) (p q : α → Bool)
    (h : ∀ x ∈ l, p x = q x) : l.all p = l.all q := by
  apply Bool.coe_iff_coe.mp
  simp only [List.all_eq_true]
  constructor
  · intro hall x hx
    rw [← h x hx]
    exact hall x hx
  · intro hall x hx
    rw [h x hx]
    exact hall x hx

/-- Spec-side definition: the fragment text occurs literally (character
by character, spaces included) at 0-based position `p` of the line. -/
def literalOccursAt (frag line : List Char) (p : Nat) : Bool :=
  decide (p + frag.length ≤ line.length) &&
    (List.range frag.length).all (fun i => frag.getD i ' ' == line.getD (p + i) ' ')

/-- On a fragment without spaces the compiled matcher is literal
matching. -/
theorem matchesAt_eq_literal (frag line : List Char) (h : ' ' ∉ frag) (p : Nat) :
    matchesAt frag line p = literalOccursAt frag line p := by
  unfold matchesAt literalOccursAt
  congr 1
  apply all_congr_mem
  intro i hi
  have hilt : i < frag.length := List.mem_range.mp hi
  have hfi : frag.getD i ' ' = frag.get ⟨i, hilt⟩ := (List.getD_eq_getElem frag ' ' hilt).trans (List.get_eq_getElem frag ⟨i, hilt⟩).symm
  have hmem : frag.get ⟨i, hilt⟩ ∈ frag := List.get_mem frag i hilt
  have hne : frag.getD i ' ' ≠ ' ' := by
    rw [hfi]
    intro he
    exact h (he ▸ hmem)
  unfold matchChar
  rw [if_neg (by simpa using hne)]

/-- The footprint of a fragment without spaces is every index. -/
theorem measureFootprint_nospace (frag : List Char) (h : ' ' ∉ frag) :
    measureFootprint frag = List.range frag.length := by
  unfold measureFootprint
  have hf : frag.enum.filter (fun ic => ic.2 != ' ') = frag.enum := by
    apply List.filter_eq_self.mpr
    intro ic hic
    have : ic.2 ∈ frag := by
      obtain ⟨i, a⟩ := ic
      exact List.getElem?_mem (List.mem_enum_iff_getElem?.mp hic)
    simp only [bne_iff_ne, ne_eq]
    intro he
    exact h (he ▸ this)
  rw [hf, List.enum_map_fst]

/-- The empty fragment matches at every position of the line. -/
theorem matchesAt_nil (line : List Char) (p : Nat) (hp : p ≤ line.length) :
    matchesAt [] line p = true := by
  simp [matchesAt, hp]

/-- A fragment longer than the line never matches. -/
theorem matchesAt_long (frag line : List Char) (h : line.length < frag.length)
    (p : Nat) : matchesAt frag line p = false := by
  unfold matchesAt
  rw [decide_eq_false (by omega : ¬(p + frag.length ≤ line.length))]
  rfl

/-! ## Spec-side counting for single-fragment patterns -/

/-- Spec-side: the 1-based `(line, column)` positions of all overlapping
literal occurrences of `frag` in the landscape, in scan order (line-major
then column-major), lines numbered from `k`. -/
def occPositions (frag : List Char) (k : Nat) : List (List Char) → List (Nat × Nat)
  | [] => []
  | line :: rest =>
      ((List.range (line.length + 1)).filter (fun p => literalOccursAt frag line p)).map
        (fun p => (k, p + 1)) ++ occPositions frag (k + 1) rest

/-- The number of overlapping literal occurrences of `frag` in the
landscape. -/
def countOccurrences (frag : List Char) (landscape : List (List Char)) : Nat :=
  (occPositions frag 1 landscape).length

/-- The cells spanned by the fragment when it starts at the 1-based
position `(line, col)`. -/
def fragCells (frag : List Char) (line col : Nat) : List (Nat × Nat) :=
  (List.range frag.length).map (fun i => (line, col + i))

/-- All cells spanned by a list of selected occurrence positions. -/
def selCells (frag : List Char) (sel : List (Nat × Nat)) : List (Nat × Nat) :=
  (sel.map (fun s => fragCells frag s.1 s.2)).flatten

/-- Does the occurrence at `o` share a cell with a selected occurrence? -/
def overlapsSel (frag : List Char) (sel : List (Nat × Nat)) (o : Nat × Nat) : Bool :=
  (fragCells frag o.1 o.2).any
    (fun c => sel.any (fun s => (fragCells frag s.1 s.2).contains c))

/-- Greedy selection in scan order: keep an occurrence exactly when it
does not overlap a previously kept one. -/
def greedySelect (frag : List Char) (sel : List (Nat × Nat))
    (qs : List (Nat × Nat)) : List (Nat × Nat) :=
  qs.foldl (fun sel o => if overlapsSel frag sel o then sel else sel ++ [o]) sel

/-- How many occurrences the greedy scan keeps over the whole landscape. -/
def greedyCount (frag : List Char) (landscape : List (List Char)) : Nat :=
  (greedySelect frag [] (occPositions frag 1 landscape)).length

/-- The occurrence record the embedded scanner produces for a no-space
fragment at position `q`. -/
def mkOcc (frag : List Char) (q : Nat × Nat) : Occurrence :=
  ⟨q.1, q.2, 0, List.range frag.length⟩

theorem allOccs_eq_occPositions (frag : List Char) (h : ' ' ∉ frag) :
    ∀ (ls : List (List Char)) (k : Nat),
      allOccs (PatternPart.make frag 0) k ls =
        (occPositions frag k ls).map (mkOcc frag) := by
  intro ls
  induction ls with
  | nil => intro k; rfl
  | cons line rest ih =>
    intro k
    show (PatternPart.make frag 0).newOccurrences k line ++ _ = _
    rw [ih]
    show _ = List.map (mkOcc frag)
      (((List.range (line.length + 1)).filter (fun p => literalOccursAt frag line p)).map
        (fun p => (k, p + 1)) ++ occPositions frag (k + 1) rest)
    rw [List.map_append]
    congr 1
    unfold PatternPart.newOccurrences PatternPart.make
    simp only [List.map_map]
    rw [List.filter_congr (fun p _ => (matchesAt_eq_literal frag line h p).symm)]
    apply List.map_congr_left
    intro p hp
    unfold mkOcc
    simp [measureFootprint_nospace frag h]

theorem mem_selCells (frag : List Char) (sel : List (Nat × Nat)) (c : Nat × Nat) :
    c ∈ selCells frag sel ↔ ∃ s ∈ sel, c ∈ fragCells frag s.1 s.2 := by
  unfold selCells
  simp only [List.mem_flatten, List.mem_map]
  constructor
  · rintro ⟨cl, ⟨s, hs, rfl⟩, hc⟩
    exact ⟨s, hs, hc⟩
  · rintro ⟨s, hs, hc⟩
    exact ⟨fragCells frag s.1 s.2, ⟨s, hs, rfl⟩, hc⟩

theorem selCells_append (frag : List Char) (sel : List (Nat × Nat)) (q : Nat × Nat)
    (c : Nat × Nat) :
    c ∈ selCells frag (sel ++ [q]) ↔
      c ∈ selCells frag sel ∨ c ∈ fragCells frag q.1 q.2 := by
  rw [mem_selCells]
  constructor
  · rintro ⟨s, hs, hc⟩
    rcases List.mem_append.mp hs with hs | hs
    · exact Or.inl ((mem_selCells _ _ _).mpr ⟨s, hs, hc⟩)
    · simp only [List.mem_singleton] at hs
      subst hs
      exact Or.inr hc
  · rintro (h | h)
    · obtain ⟨s, hs, hc⟩ := (mem_selCells _ _ _).mp h
      exact ⟨s, List.mem_append.mpr (Or.inl hs), hc⟩
    · exact ⟨q, List.mem_append.mpr (Or.inr (by simp)), h⟩

theorem cellsOf_mkOcc (frag : List Char) (q : Nat × Nat) :
    cellsOf (mkOcc frag q) = fragCells frag q.1 q.2 := rfl

/-- Under the simulation between the exclusion set and the greedy
selection, the code's blocking test agrees with the spec's overlap
test. -/
theorem alreadyUsed_eq_overlaps (u : UsedCharacters) (frag : List Char)
    (sel : List (Nat × Nat)) (q : Nat × Nat)
    (hsim : ∀ c, c ∈ u.list ↔ c ∈ selCells frag sel) :
    u.alreadyUsed (mkOcc frag q) = overlapsSel frag sel q := by
  apply Bool.coe_iff_coe.mp
  unfold UsedCharacters.alreadyUsed overlapsSel mkOcc
  simp only [List.any_eq_true]
  constructor
  · rintro ⟨i, hi, hpos⟩
    have hc : (q.1, q.2 + i) ∈ u.list := (isPositionUsed_iff u _ _).mp hpos
    have hc2 := (hsim _).mp hc
    obtain ⟨s, hs, hsc⟩ := (mem_selCells _ _ _).mp hc2
    refine ⟨(q.1, q.2 + i), ?_, s, hs, ?_⟩
    · unfold fragCells
      exact List.mem_map_of_mem _ hi
    · exact (List.elem_iff).mpr hsc
  · rintro ⟨c, hc, s, hs, hcs⟩
    unfold fragCells at hc
    simp only [List.mem_map] at hc
    obtain ⟨i, hi, rfl⟩ := hc
    refine ⟨i, hi, (isPositionUsed_iff u _ _).mpr ?_⟩
    apply (hsim _).mpr
    exact (mem_selCells _ _ _).mpr ⟨s, hs, (List.elem_iff).mp hcs⟩

theorem detectPattern_cons (g : BugFinder) (p0 : PatternPart) (rest : List PatternPart)
    (hpat : g.pattern = p0 :: rest) (hset : g.patternSet = true) :
    g.detectPattern = .ok (p0.occurrences.foldl BugFinder.detectStep g) := by
  unfold BugFinder.detectPattern BugFinder.checkPattern
  simp [hpat, hset]

/-- Simulation of `detectPattern`'s loop by the greedy selection, for a
single no-space fragment: the match counter advances exactly like the
size of the greedy selection. -/
theorem detect_fold_sim (frag : List Char) :
    ∀ (qs : List (Nat × Nat)) (st : BugFinder) (sel : List (Nat × Nat)) (base : Nat),
      st.pattern.length = 1 →
      st.matches' = base + sel.length →
      (∀ c, c ∈ st.usedCharacters.list ↔ c ∈ selCells frag sel) →
      ((qs.map (mkOcc frag)).foldl BugFinder.detectStep st).matches' =
        base + (greedySelect frag sel qs).length := by
  intro qs
  induction qs with
  | nil => intro st sel base h1 h2 h3; exact h2
  | cons q qs ih =>
    intro st sel base h1 h2 h3
    rw [List.map_cons, List.foldl_cons]
    have hau : st.usedCharacters.alreadyUsed (mkOcc frag q) = overlapsSel frag sel q :=
      alreadyUsed_eq_overlaps _ _ _ _ h3
    have hgs : greedySelect frag sel (q :: qs) =
        greedySelect frag (if overlapsSel frag sel q then sel else sel ++ [q]) qs := rfl
    cases hov : overlapsSel frag sel q with
    | true =>
      have hstep : st.detectStep (mkOcc frag q) = st := by
        simp only [BugFinder.detectStep, hau, hov]
        rfl
      rw [hstep, hgs]
      simp only [hov, if_true]
      exact ih st sel base h1 h2 h3
    | false =>
      have hfind : st.findOccurrenceOfNextPatternPart [mkOcc frag q] = [mkOcc frag q] :=
        findNext_singleton st _ h1
      have hstep : st.detectStep (mkOcc frag q) =
          { st with
              matches' := st.matches' + 1
              usedCharacters := st.usedCharacters.markUsed (mkOcc frag q)
              matchParts := st.matchParts ++ [[mkOcc frag q]] } := by
        simp only [BugFinder.detectStep, hau, hov, hfind]
        simp [h1]
      rw [hstep, hgs]
      simp only [hov, Bool.false_eq_true, if_false]
      apply ih _ (sel ++ [q]) base
      · exact h1
      · simp only [List.length_append, List.length_singleton]
        omega
      · intro c
        rw [markUsed_mem, selCells_append, h3, cellsOf_mkOcc]

/-- A full session with a single no-space fragment, in closed form: it
succeeds, and its match count is the greedy selection's size. -/
theorem session_single_fragment (frag : List Char) (landscape : List (List Char))
    (h1 : ' ' ∉ frag) (h2 : pyRstrip frag = frag) :
    ∃ f, runSession (some [frag]) (some landscape) = .ok f ∧
      f.matches' = greedyCount frag landscape := by
  rw [runSession_some [frag] landscape (by simp)]
  have hbuild : buildParts 0 [frag] = [PatternPart.make frag 0] := by
    unfold buildParts buildParts
    rw [h2]
  rw [hbuild, scanLines_single]
  set part0 : PatternPart :=
    { PatternPart.make frag 0 with
        occurrences := (PatternPart.make frag 0).occurrences ++
          allOccs (PatternPart.make frag 0) 1 landscape } with hpart0
  set g : BugFinder :=
    { pattern := [part0]
      patternSet := true
      matches' := 0
      matchParts := []
      usedCharacters := ⟨[]⟩ } with hg
  rw [detectPattern_cons g part0 [] rfl rfl]
  refine ⟨_, rfl, ?_⟩
  have hoccs : part0.occurrences = (occPositions frag 1 landscape).map (mkOcc frag) := by
    rw [hpart0]
    show (PatternPart.make frag 0).occurrences ++
        allOccs (PatternPart.make frag 0) 1 landscape = _
    rw [allOccs_eq_occPositions frag h1]
    rfl
  rw [hoccs]
  have := detect_fold_sim frag (occPositions frag 1 landscape) g [] 0 rfl rfl
    (by intro c; simp [hg, selCells])
  rw [this]
  simp [greedyCount]

/-!
## The claims

Each claim of the specification is settled by one theorem below (with a
counterexample theorem where the claim as stated fails on the code, and a
witness theorem where the claim theorem carries hypotheses).
-/

/-- C1.  The claim states that in every stored match the occurrence at
position `i` was produced by fragment `i`.  The code violates this: with
pattern `["a", "b", "c"]` and landscape `["a", "c", "c"]` the assembler,
after failing to continue with fragment 1 (`"b"`, which never occurs),
moves on to fragment 2 whose occurrence at line 2 column 1 `follows` the
seed, and then chains a second occurrence of fragment 2 — the stored
match's parent indices are `[0, 2, 2]`, not `[0, 1, 2]`, and fragment 1
contributes no occurrence at all, contradicting both the specification
and the source's own docstrings ("find line n+1 of a pattern to continue
after line n has been found"). -/
theorem claim1_fragment_order_violated :
    (matchPartsOf (runSession (some [['a'], ['b'], ['c']]) (some [['a'], ['c'], ['c']]))).map
        (fun m => m.map Occurrence.parent) = [[0, 2, 2]] ∧
    matchesOf (runSession (some [['a'], ['b'], ['c']]) (some [['a'], ['c'], ['c']])) = 1 := by
  decide

/-- C2, counterexample.  The claim says the match count of a single
no-space fragment equals the number of overlapping literal occurrences.
For fragment `"aa"` and landscape `"aaa"` there are two overlapping
literal occurrences (columns 1 and 2) but the code reports one match:
the first match consumes columns 1-2, which blocks the occurrence at
columns 2-3. -/
theorem claim2_counterexample :
    matchesOf (runSession (some [['a', 'a']]) (some [['a', 'a', 'a']])) = 1 ∧
    countOccurrences ['a', 'a'] [['a', 'a', 'a']] = 2 ∧
    matchesOf (runSession (some [['a', 'a']]) (some [['a', 'a', 'a']])) ≠
      countOccurrences ['a', 'a'] [['a', 'a', 'a']] := by
  decide

/-- C2, amended.  For every pattern consisting of a single fragment with
no space characters (a fragment is trailing-whitespace-stripped by
loading, hence the `pyRstrip` hypothesis) and every landscape, the
session succeeds and the reported match count equals the number of
overlapping literal occurrences *kept by a greedy scan-order pass that
skips any occurrence sharing a landscape cell with a previously kept
one* — rather than the total number of overlapping literal
occurrences. -/
theorem claim2_amended_greedy_count (frag : List Char) (landscape : List (List Char))
    (h1 : ' ' ∉ frag) (h2 : pyRstrip frag = frag) :
    exceptOk (runSession (some [frag]) (some landscape)) = true ∧
    matchesOf (runSession (some [frag]) (some landscape)) = greedyCount frag landscape := by
  obtain ⟨f, hf, hm⟩ := session_single_fragment frag landscape h1 h2
  rw [hf]
  exact ⟨rfl, hm⟩

theorem claim2_amended_greedy_count_witness :
    (' ' ∉ (['a', 'b'] : List Char)) ∧ pyRstrip ['a', 'b'] = ['a', 'b'] ∧
    (exceptOk (runSession (some [['a', 'b']]) (some [['a', 'b', 'a', 'b']])) = true ∧
      matchesOf (runSession (some [['a', 'b']]) (some [['a', 'b', 'a', 'b']])) =
        greedyCount ['a', 'b'] [['a', 'b', 'a', 'b']]) :=
  ⟨by decide, by decide,
    claim2_amended_greedy_count ['a', 'b'] [['a', 'b', 'a', 'b']] (by decide) (by decide)⟩

/-- C3, counterexample.  The claim says an empty fragment yields zero
occurrences.  In the code the empty fragment compiles to the regex
`(?=())`, whose zero-width lookahead matches at every scan position, so
on the two-character line `"ab"` it records three occurrences (columns
1, 2 and 3), not zero. -/
theorem claim3_counterexample :
    ((PatternPart.make [] 0).findOccurrences 1 ['a', 'b']).occurrences.length = 3 := by
  decide

/-- C3, amended.  `findOccurrences` of an empty fragment records one
occurrence at every column `1 .. line.length + 1` (hence
`line.length + 1` of them, not zero); a fragment longer than the line
records zero occurrences; neither case is an error (the function is
total). -/
theorem claim3_amended_empty_and_long_fragments (idx lineNumber : Nat)
    (line frag : List Char) (hfrag : line.length < frag.length) :
    ((PatternPart.make [] idx).findOccurrences lineNumber line).occurrences.length =
      line.length + 1 ∧
    ((PatternPart.make frag idx).findOccurrences lineNumber line).occurrences = [] := by
  constructor
  · show (((List.range (line.length + 1)).filter (fun p => matchesAt [] line p)).map
        (fun p => (⟨lineNumber, p + 1, idx, measureFootprint []⟩ : Occurrence))).length =
      line.length + 1
    rw [List.filter_eq_self.mpr (fun p hp => matchesAt_nil line p
      (by have := List.mem_range.mp hp; omega))]
    rw [List.length_map, List.length_range]
  · show ((List.range (line.length + 1)).filter (fun p => matchesAt frag line p)).map
        (fun p => (⟨lineNumber, p + 1, idx, measureFootprint frag⟩ : Occurrence)) = []
    rw [List.filter_eq_nil_iff.mpr
      (fun p _ => by rw [matchesAt_long frag line hfrag p]; simp)]
    rfl

theorem claim3_amended_witness :
    (['x'] : List Char).length < (['a', 'b'] : List Char).length ∧
    (((PatternPart.make [] 0).findOccurrences 5 ['x']).occurrences.length =
        (['x'] : List Char).length + 1 ∧
      ((PatternPart.make ['a', 'b'] 0).findOccurrences 5 ['x']).occurrences = []) :=
  ⟨by decide, claim3_amended_empty_and_long_fragments 0 5 ['x'] ['a', 'b'] (by decide)⟩

/-- C4, counterexample.  The claim says calling `detectPattern` before
`analyzeLandscape` raises the pattern-not-set error.  In the code
`detectPattern` only runs `checkPattern`, which checks the pattern flag
and the fragment list but never whether the landscape was scanned:
loading the pattern `["a"]` and calling `detectPattern` directly
succeeds with zero matches instead of raising. -/
theorem claim4_counterexample :
    exceptOk ((BugFinder.init.setPattern (some [['a']])).bind BugFinder.detectPattern) = true ∧
    matchesOf ((BugFinder.init.setPattern (some [['a']])).bind BugFinder.detectPattern) = 0 := by
  decide

/-- C4, amended.  In a session where the pattern has been loaded
(nonempty input) but the landscape has never been scanned,
`detectPattern` does not raise: all occurrence lists are empty, so it
returns the state unchanged, with zero matches and no stored results.
(The pattern-not-set error is raised only when the pattern itself was
not properly loaded.) -/
theorem claim4_amended_no_order_check (pl : List (List Char)) (hpl : pl ≠ [])
    (f : BugFinder) (h : BugFinder.init.setPattern (some pl) = .ok f) :
    f.detectPattern = .ok f ∧ f.matches' = 0 ∧ f.matchParts = [] := by
  unfold BugFinder.setPattern at h
  injection h with h
  subst h
  refine ⟨?_, rfl, rfl⟩
  cases pl with
  | nil => exact absurd rfl hpl
  | cons l rest =>
    rw [detectPattern_cons _ (PatternPart.make (pyRstrip l) 0) (buildParts 1 rest) rfl rfl]
    rfl

theorem claim4_amended_witness :
    ([['a']] : List (List Char)) ≠ [] ∧
    BugFinder.init.setPattern (some [['a']]) =
      .ok ⟨[⟨['a'], [0], 0, []⟩], true, 0, [], ⟨[]⟩⟩ ∧
    ((⟨[⟨['a'], [0], 0, []⟩], true, 0, [], ⟨[]⟩⟩ : BugFinder).detectPattern =
        .ok ⟨[⟨['a'], [0], 0, []⟩], true, 0, [], ⟨[]⟩⟩ ∧
      (⟨[⟨['a'], [0], 0, []⟩], true, 0, [], ⟨[]⟩⟩ : BugFinder).matches' = 0 ∧
      (⟨[⟨['a'], [0], 0, []⟩], true, 0, [], ⟨[]⟩⟩ : BugFinder).matchParts = []) :=
  ⟨by decide, by rfl, claim4_amended_no_order_check [['a']] (by decide) _ (by rfl)⟩

/-- C5, counterexample.  The claim says `setPattern` raises
`InvalidPatternError` whenever the resulting fragment list is empty.
In the code `setPattern` succeeds on an empty but readable input (the
reading loop simply runs zero times and the flag is still set); the
emptiness is only caught later by `checkPattern`. -/
theorem claim5_counterexample :
    exceptOk (BugFinder.init.setPattern (some [])) = true := by
  decide

/-- C5, amended.  `setPattern` raises exactly when the input cannot be
read; an empty pattern input yields success with an empty fragment
list.  No partial search proceeds from such a session, because the
emptiness is caught by `checkPattern`: both `analyzeLandscape` (for any
landscape input) and `detectPattern` fail on the empty-pattern state
with the pattern-not-properly-defined error. -/
theorem claim5_amended_empty_pattern (pl : List (List Char))
    (li : Option (List (List Char))) :
    BugFinder.init.setPattern none = .error "Cannot read the pattern file." ∧
    exceptOk (BugFinder.init.setPattern (some pl)) = true ∧
    ((BugFinder.init.setPattern (some [])).bind (fun f => f.analyzeLandscape li)) =
      .error "Pattern has not been properly defined." ∧
    ((BugFinder.init.setPattern (some [])).bind BugFinder.detectPattern) =
      .error "Pattern has not been properly defined." := by
  exact ⟨rfl, rfl, rfl, rfl⟩

/-- C6.  In every successful session, the footprint cell sets of
distinct finalized matches are pairwise disjoint (once a `(line,
column)` cell is consumed by a finalized match, no later-finalized match
covers it), and the exclusion set only grows: every recorded position
survives every further step of the detection loop (`detectStep` is the
only operation of the session that touches the exclusion set, and it
never removes). -/
theorem claim6_disjoint_matches_and_growth (pi li : List (List Char)) (f : BugFinder)
    (h : runSession (some pi) (some li) = Except.ok f) :
    List.Pairwise (fun m1 m2 => disjointMatches m1 m2 = true) f.matchParts ∧
    ∀ (st : BugFinder) (occ : Occurrence) (p : Nat × Nat),
      p ∈ st.usedCharacters.list → p ∈ (st.detectStep occ).usedCharacters.list := by
  refine ⟨?_, detectStep_used_mono⟩
  by_cases hpi : pi = []
  · subst hpi
    rw [runSession_nil_pattern] at h
    exact absurd h (by simp)
  · rw [runSession_some pi li hpi] at h
    exact (detectPattern_matchInv _ f h ⟨List.Pairwise.nil, by simp⟩).1

theorem claim6_witness :
    runSession (some [['a']]) (some [['a']]) = Except.ok
      ⟨[⟨['a'], [0], 0, [⟨1, 1, 0, [0]⟩]⟩], true, 1, [[⟨1, 1, 0, [0]⟩]], ⟨[(1, 1)]⟩⟩ ∧
    List.Pairwise (fun m1 m2 => disjointMatches m1 m2 = true)
      (⟨[⟨['a'], [0], 0, [⟨1, 1, 0, [0]⟩]⟩], true, 1, [[⟨1, 1, 0, [0]⟩]],
        ⟨[(1, 1)]⟩⟩ : BugFinder).matchParts :=
  ⟨by rfl, (claim6_disjoint_matches_and_growth [['a']] [['a']] _ (by rfl)).1⟩

/-- C7.  `findOccurrences` records exactly the 1-based starting columns
at which the compiled matcher accepts, one occurrence per scan position
with no skipping after a hit — overlapping matches included.  In
particular (second conjunct) fragment `"aa"` on the landscape line
`"aaa"` records exactly two occurrences, at columns 1 and 2. -/
theorem claim7_overlapping_occurrences (idx lineNumber : Nat) (frag line : List Char) :
    ((PatternPart.make frag idx).findOccurrences lineNumber line).occurrences.map
        (fun o => (o.line, o.column)) =
      ((List.range (line.length + 1)).filter (fun p => matchesAt frag line p)).map
        (fun p => (lineNumber, p + 1)) ∧
    ((PatternPart.make ['a', 'a'] 0).findOccurrences 1 ['a', 'a', 'a']).occurrences.map
        Occurrence.column = [1, 2] := by
  constructor
  · show (((List.range (line.length + 1)).filter (fun p => matchesAt frag line p)).map
        (fun p => (⟨lineNumber, p + 1, idx, measureFootprint frag⟩ : Occurrence))).map
          (fun o => (o.line, o.column)) = _
    rw [List.map_map]
    rfl
  · decide

/-- C8.  The assembler commits to the first viable continuation at every
step: `findOccurrenceOfNextPatternPart` computes exactly the greedy
iteration `chainExtend`, which at each step appends the first occurrence
— scanning remaining fragments in index order and each fragment's
occurrences in discovery order — that is unblocked and follows the
chain's last element, and stops as soon as none exists.  No alternative
continuation is ever explored (first-match commitment, not exhaustive
search); sibling occurrences at a depth can never rescue a failed
recursion, since at most one position can follow a given occurrence. -/
theorem claim8_greedy_commitment (self : BugFinder) (occurrenceList : List Occurrence)
    (hne : occurrenceList ≠ []) :
    self.findOccurrenceOfNextPatternPart occurrenceList =
      chainExtend self.pattern self.usedCharacters self.pattern.length occurrenceList :=
  findNext_eq_chain self occurrenceList hne

theorem claim8_witness :
    ([(⟨1, 1, 0, [0]⟩ : Occurrence)] ≠ ([] : List Occurrence)) ∧
    (⟨[⟨['a'], [0], 0, [⟨1, 1, 0, [0]⟩]⟩, ⟨['b'], [0], 1, []⟩], true, 0, [],
        ⟨[]⟩⟩ : BugFinder).findOccurrenceOfNextPatternPart [⟨1, 1, 0, [0]⟩] =
      chainExtend
        (⟨[⟨['a'], [0], 0, [⟨1, 1, 0, [0]⟩]⟩, ⟨['b'], [0], 1, []⟩], true, 0, [],
          ⟨[]⟩⟩ : BugFinder).pattern
        (⟨[⟨['a'], [0], 0, [⟨1, 1, 0, [0]⟩]⟩, ⟨['b'], [0], 1, []⟩], true, 0, [],
          ⟨[]⟩⟩ : BugFinder).usedCharacters
        (⟨[⟨['a'], [0], 0, [⟨1, 1, 0, [0]⟩]⟩, ⟨['b'], [0], 1, []⟩], true, 0, [],
          ⟨[]⟩⟩ : BugFinder).pattern.length [⟨1, 1, 0, [0]⟩] :=
  ⟨by decide, claim8_greedy_commitment _ _ (by decide)⟩

/-- C9.  The whole pipeline is a function of its two text inputs: two
successful runs on identical inputs report the same match count and the
same ordered list of match results. -/
theorem claim9_determinism (patternInput landscapeInput : Option (List (List Char)))
    (f1 f2 : BugFinder)
    (h1 : runSession patternInput landscapeInput = .ok f1)
    (h2 : runSession patternInput landscapeInput = .ok f2) :
    f1.matches' = f2.matches' ∧ f1.matchParts = f2.matchParts := by
  rw [h1] at h2
  injection h2 with h2
  subst h2
  exact ⟨rfl, rfl⟩

theorem claim9_witness :
    runSession (some [['a']]) (some [['a']]) = Except.ok
      ⟨[⟨['a'], [0], 0, [⟨1, 1, 0, [0]⟩]⟩], true, 1, [[⟨1, 1, 0, [0]⟩]], ⟨[(1, 1)]⟩⟩ ∧
    ((⟨[⟨['a'], [0], 0, [⟨1, 1, 0, [0]⟩]⟩], true, 1, [[⟨1, 1, 0, [0]⟩]],
        ⟨[(1, 1)]⟩⟩ : BugFinder).matches' =
      (⟨[⟨['a'], [0], 0, [⟨1, 1, 0, [0]⟩]⟩], true, 1, [[⟨1, 1, 0, [0]⟩]],
        ⟨[(1, 1)]⟩⟩ : BugFinder).matches' ∧
     (⟨[⟨['a'], [0], 0, [⟨1, 1, 0, [0]⟩]⟩], true, 1, [[⟨1, 1, 0, [0]⟩]],
        ⟨[(1, 1)]⟩⟩ : BugFinder).matchParts =
      (⟨[⟨['a'], [0], 0, [⟨1, 1, 0, [0]⟩]⟩], true, 1, [[⟨1, 1, 0, [0]⟩]],
        ⟨[(1, 1)]⟩⟩ : BugFinder).matchParts) :=
  ⟨by rfl, claim9_determinism (some [['a']]) (some [['a']]) _ _ (by rfl) (by rfl)⟩

theorem detectStep_countInv (f : BugFinder) (occ : Occurrence)
    (h : f.matches' = f.matchParts.length) :
    (f.detectStep occ).matches' = (f.detectStep occ).matchParts.length := by
  simp only [BugFinder.detectStep]
  split
  · exact h
  · split
    · simp [h]
    · exact h

theorem foldl_detectStep_countInv :
    ∀ (l : List Occurrence) (st : BugFinder), st.matches' = st.matchParts.length →
      (l.foldl BugFinder.detectStep st).matches' =
        (l.foldl BugFinder.detectStep st).matchParts.length := by
  intro l
  induction l with
  | nil => intro st h; exact h
  | cons a t ih => intro st h; exact ih _ (detectStep_countInv st a h)

/-- C10.  The match counter always equals the number of stored match
results: the invariant holds in the initial state, is preserved by every
public operation — in particular by every single step of the detection
loop, which increments the counter exactly when it appends an occurrence
list to the results — and therefore holds after any successful full
session. -/
theorem claim10_matches_eq_stored :
    BugFinder.init.matches' = BugFinder.init.matchParts.length ∧
    (∀ (f f' : BugFinder) (pi : Option (List (List Char))),
      f.setPattern pi = .ok f' → f.matches' = f.matchParts.length →
        f'.matches' = f'.matchParts.length) ∧
    (∀ (f f' : BugFinder) (li : Option (List (List Char))),
      f.analyzeLandscape li = .ok f' → f.matches' = f.matchParts.length →
        f'.matches' = f'.matchParts.length) ∧
    (∀ (f : BugFinder) (occ : Occurrence), f.matches' = f.matchParts.length →
      (f.detectStep occ).matches' = (f.detectStep occ).matchParts.length) ∧
    (∀ (f f' : BugFinder), f.detectPattern = .ok f' →
      f.matches' = f.matchParts.length → f'.matches' = f'.matchParts.length) ∧
    (∀ (pi li : Option (List (List Char))) (f : BugFinder),
      runSession pi li = .ok f → f.matches' = f.matchParts.length) := by
  have hset : ∀ (f f' : BugFinder) (pi : Option (List (List Char))),
      f.setPattern pi = .ok f' → f.matches' = f.matchParts.length →
        f'.matches' = f'.matchParts.length := by
    intro f f' pi h hInv
    unfold BugFinder.setPattern at h
    split at h
    · exact absurd h (by simp)
    · injection h with h
      subst h
      simpa using hInv
  have hana : ∀ (f f' : BugFinder) (li : Option (List (List Char))),
      f.analyzeLandscape li = .ok f' → f.matches' = f.matchParts.length →
        f'.matches' = f'.matchParts.length := by
    intro f f' li h hInv
    unfold BugFinder.analyzeLandscape at h
    split at h
    · exact absurd h (by simp)
    · split at h
      · exact absurd h (by simp)
      · injection h with h
        subst h
        simpa using hInv
  have hdet : ∀ (f f' : BugFinder), f.detectPattern = .ok f' →
      f.matches' = f.matchParts.length → f'.matches' = f'.matchParts.length := by
    intro f f' h hInv
    unfold BugFinder.detectPattern at h
    split at h
    · exact absurd h (by simp)
    · split at h
      · injection h with h
        subst h
        exact hInv
      · injection h with h
        subst h
        exact foldl_detectStep_countInv _ _ hInv
  refine ⟨rfl, hset, hana, detectStep_countInv, hdet, ?_⟩
  intro pi li f h
  unfold runSession at h
  split at h
  · exact absurd h (by simp)
  · next f1 heq1 =>
    split at h
    · exact absurd h (by simp)
    · next f2 heq2 =>
      exact hdet f2 f h (hana f1 f2 li heq2 (hset BugFinder.init f1 pi heq1 rfl))

theorem claim10_witness :
    ((⟨[], true, 5, [[], [], [], [], []], ⟨[]⟩⟩ : BugFinder).matches' =
      (⟨[], true, 5, [[], [], [], [], []], ⟨[]⟩⟩ : BugFinder).matchParts.length) ∧
    (((⟨[], true, 5, [[], [], [], [], []], ⟨[]⟩⟩ : BugFinder).detectStep
        ⟨1, 1, 0, [0]⟩).matches' =
      ((⟨[], true, 5, [[], [], [], [], []], ⟨[]⟩⟩ : BugFinder).detectStep
        ⟨1, 1, 0, [0]⟩).matchParts.length) :=
  ⟨by decide, claim10_matches_eq_stored.2.2.2.1 _ ⟨1, 1, 0, [0]⟩ (by decide)⟩
